import Mathlib

/-!
Shallow embedding of the multi-agent orchestration core of
`backend/agent_framework.py`: the agent execution envelope
(`Agent.process`, `Agent.get_metrics`), the shared memory
(`AgentMemory.store` / `retrieve` / `search_history`), the three strand
execution modes (`execute_sequential`, `execute_parallel`,
`execute_graph` with its recursive `process_next` traversal) and the
orchestrator dispatch (`MultiAgentSystem.execute_strand`).

Modelling decisions:
  * the wall clock (`time.time()`) is modelled by a natural-number
    counter threaded through execution; each `process` call is given an
    explicit start and end instant;
  * raising / propagating a Python exception is modelled with
    `Except String`; the agent-specific logic function (opaque to the
    core) is a field `logic : α → Except String α`;
  * Python dictionaries are modelled as association lists whose lookup
    returns the most recent binding (new bindings shadow old ones);
  * mutation of agent objects during strand execution is modelled by
    threading the updated agent list through and returning it alongside
    the result; a propagated exception still returns the mutated list
    (Python exceptions do not roll back state);
  * the recursive graph traversal `process_next` is written with an
    explicit fuel parameter so that it is structurally recursive; fuel
    exhaustion is a distinguished exit (`WalkExit.fuelOut`) and we prove
    it never happens for the fuel bound `graphFuel` the wrapper uses.
-/

inductive AgentStatus where
  | idle
  | processing
  | completed
  | error
  deriving DecidableEq, Repr

structure LogEntry where
  timestamp : ℕ
  agent : String
  level : String
  message : String
  deriving DecidableEq, Repr

structure AgentMetrics where
  total_executions : ℕ
  successful_executions : ℕ
  failed_executions : ℕ
  total_time : ℕ
  deriving DecidableEq, Repr

/-- The agent execution envelope: identity, status, log and metrics
around an opaque logic function (`Agent._execute_logic` is overridden
per concrete agent; the core treats it as an opaque unit of work). -/
structure Agent (α : Type) where
  id : String
  name : String
  role : String
  status : AgentStatus
  execution_log : List LogEntry
  metrics : AgentMetrics
  logic : α → Except String α

variable {α : Type} {β : Type}

/-- `Agent.log(message, level)`: append a timestamped entry. -/
def Agent.log (a : Agent α) (now : ℕ) (message : String) (level : String) : Agent α :=
  { a with execution_log := a.execution_log ++ [⟨now, a.name, level, message⟩] }

/-- The `try`/`except` part of `Agent.process`: run the logic, update
status, counters and log on success or failure, re-raise failures. -/
def Agent.processTry (a : Agent α) (input : α) (startTime endTime : ℕ) :
    Except String α × Agent α :=
  let a0 := { a with status := AgentStatus.processing }
  match a0.logic input with
  | .ok result =>
      let a1 := { a0 with
        status := AgentStatus.completed
        metrics := { a0.metrics with
          successful_executions := a0.metrics.successful_executions + 1
          total_time := a0.metrics.total_time + (endTime - startTime) } }
      let a2 := a1.log endTime
        ("Completed processing in " ++ toString (endTime - startTime) ++ "s") "info"
      (.ok result, a2)
  | .error e =>
      let a1 := { a0 with
        status := AgentStatus.error
        metrics := { a0.metrics with
          failed_executions := a0.metrics.failed_executions + 1 } }
      let a2 := a1.log endTime ("Error: " ++ e) "error"
      (.error e, a2)

/-- The `finally` block of `Agent.process`: runs on every exit path. -/
def Agent.processFinally (a : Agent α) : Agent α :=
  { a with
    metrics := { a.metrics with total_executions := a.metrics.total_executions + 1 }
    status := AgentStatus.idle }

/-- `Agent.process(input_data)`: the full envelope (try/except + finally). -/
def Agent.process (a : Agent α) (input : α) (startTime endTime : ℕ) :
    Except String α × Agent α :=
  let p := a.processTry input startTime endTime
  (p.1, p.2.processFinally)

structure MetricsReport where
  agent_id : String
  agent_name : String
  total_executions : ℕ
  successful_executions : ℕ
  failed_executions : ℕ
  success_rate : ℚ
  average_execution_time : ℚ
  deriving DecidableEq, Repr

/-- `Agent.get_metrics()`: derived performance metrics with
division-by-zero guards. -/
def Agent.get_metrics (a : Agent α) : MetricsReport :=
  { agent_id := a.id
    agent_name := a.name
    total_executions := a.metrics.total_executions
    successful_executions := a.metrics.successful_executions
    failed_executions := a.metrics.failed_executions
    success_rate :=
      if a.metrics.total_executions > 0 then
        (a.metrics.successful_executions : ℚ) / (a.metrics.total_executions : ℚ) * 100
      else 0
    average_execution_time :=
      if a.metrics.total_executions > 0 then
        (a.metrics.total_time : ℚ) / (a.metrics.total_executions : ℚ)
      else 0 }

structure MemEntry (α : Type) where
  key : String
  value : α
  timestamp : ℕ
  deriving DecidableEq, Repr

/-- `AgentMemory`: a short-term key/value map plus an append-only
long-term journal of timestamped entries. -/
structure AgentMemory (α : Type) where
  short_term : List (String × α)
  long_term : List (MemEntry α)
  context : List (String × α)
  deriving DecidableEq, Repr

/-- `AgentMemory.store(key, value, persistent)`. -/
def AgentMemory.store (m : AgentMemory α) (key : String) (value : α)
    (persistent : Bool) (now : ℕ) : AgentMemory α :=
  let m1 := { m with short_term := (key, value) :: m.short_term }
  if persistent then
    { m1 with long_term := m1.long_term ++ [⟨key, value, now⟩] }
  else m1

/-- `AgentMemory.retrieve(key)`. -/
def AgentMemory.retrieve (m : AgentMemory α) (key : String) : Option α :=
  m.short_term.lookup key

/-- `AgentMemory.search_history(key)`. -/
def AgentMemory.search_history (m : AgentMemory α) (key : String) : List (MemEntry α) :=
  m.long_term.filter (fun item => item.key == key)

/-- The dictionary each strand execution mode returns: either the
`{"strand": ..., "results": ..., "final_output": ...}` shape (with
`final_output` present in sequential mode only) or an `{"error": ...}`
dictionary. -/
inductive StrandResult (α : Type) where
  | success (strand : String) (results : List α) (final_output : Option α)
  | errorValue (msg : String)
  deriving DecidableEq, Repr

/-- `AgentStrand`: an ordered list of agents plus the communication
graph (adjacency list agent id → ordered successor ids). -/
structure AgentStrand (α : Type) where
  name : String
  agents : List (Agent α)
  communication_graph : List (String × List String)

/-- `AgentStrand.add_communication(from_agent, to_agent)` on the
adjacency list. -/
def updGraph : List (String × List String) → String → String → List (String × List String)
  | [], from_agent, to_agent => [(from_agent, [to_agent])]
  | (k, l) :: rest, from_agent, to_agent =>
    if k == from_agent then (k, l ++ [to_agent]) :: rest
    else (k, l) :: updGraph rest from_agent to_agent

def AgentStrand.add_communication (s : AgentStrand α) (from_agent to_agent : String) :
    AgentStrand α :=
  { s with communication_graph := updGraph s.communication_graph from_agent to_agent }

/-- The loop body of `execute_sequential`: fold the agents in list
order, feeding each agent the previous agent's output; stop at the
first failure (subsequent agents untouched). Returns the result, the
updated agent list and the advanced clock. -/
def runSequential : List (Agent α) → α → ℕ →
    Except String (List α × α) × List (Agent α) × ℕ
  | [], data, t => (.ok ([], data), [], t)
  | a :: rest, data, t =>
    match a.process data t (t + 1) with
    | (.error e, a1) => (.error e, a1 :: rest, t + 1)
    | (.ok out, a1) =>
      match runSequential rest out (t + 1) with
      | (.error e, rest1, t2) => (.error e, a1 :: rest1, t2)
      | (.ok (results, fin), rest1, t2) => (.ok (out :: results, fin), a1 :: rest1, t2)

/-- `AgentStrand.execute_sequential(initial_input)`. -/
def AgentStrand.execute_sequential (s : AgentStrand α) (initial_input : α) (t : ℕ) :
    Except String (StrandResult α) × AgentStrand α × ℕ :=
  match runSequential s.agents initial_input t with
  | (.error e, ags, t2) => (.error e, { s with agents := ags }, t2)
  | (.ok (results, fin), ags, t2) =>
      (.ok (.success s.name results (some fin)), { s with agents := ags }, t2)

/-- `asyncio.gather` result collection: the list of all results if
every task succeeded, otherwise the first failure in task order. -/
def collectExcept : List (Except String α) → Except String (List α)
  | [] => .ok []
  | .error e :: _ => .error e
  | .ok x :: rest =>
    match collectExcept rest with
    | .error e => .error e
    | .ok xs => .ok (x :: xs)

/-- `AgentStrand.execute_parallel(initial_input)`: every agent is given
the same initial input; all `process` calls run (no cancellation); the
gathered result is the list of outputs, or the first failure. -/
def AgentStrand.execute_parallel (s : AgentStrand α) (initial_input : α) (t : ℕ) :
    Except String (StrandResult α) × AgentStrand α × ℕ :=
  let pairs := s.agents.map (fun a => a.process initial_input t (t + 1))
  let ags := pairs.map Prod.snd
  match collectExcept (pairs.map Prod.fst) with
  | .error e => (.error e, { s with agents := ags }, t + 1)
  | .ok results => (.ok (.success s.name results none), { s with agents := ags }, t + 1)

/-- `next((a for a in self.agents if a.id == next_agent_id), None)`. -/
def findAgent (agents : List (Agent α)) (agent_id : String) : Option (Agent α) :=
  agents.find? (fun a => a.id == agent_id)

/-- In-place mutation of an agent object: replace the first agent in
the list carrying the given id. -/
def replaceFirst : List (Agent α) → String → Agent α → List (Agent α)
  | [], _, _ => []
  | a :: rest, agent_id, a' =>
    if a.id == agent_id then a' :: rest else a :: replaceFirst rest agent_id a'

/-- `self.communication_graph[agent_id]`, empty when the id has no
entry (`if agent_id not in self.communication_graph: return`). -/
def graphSucc (g : List (String × List String)) (agent_id : String) : List String :=
  match g.lookup agent_id with
  | some succs => succs
  | none => []

/-- The mutable state closed over by `process_next`: the strand's agent
objects, the per-run visited set (`processed`), the accumulated
`results`, and the clock. -/
structure GraphState (α : Type) where
  agents : List (Agent α)
  processed : List String
  results : List α
  t : ℕ

inductive WalkExit where
  | done
  | fail (e : String)
  | fuelOut
  deriving DecidableEq, Repr

/-- The body of `process_next(agent_id, data)` specialised to the
successor list being iterated: for each not-yet-visited successor with
a matching agent, process it, record the result, mark it visited and
recurse into its own successors before moving to the next sibling.
A propagated agent failure aborts the whole traversal. The fuel
argument makes the recursion structural; exhaustion is reported as
`WalkExit.fuelOut`. -/
def walkList (g : List (String × List String)) :
    ℕ → List String → α → GraphState α → GraphState α × WalkExit
  | 0, _, _, st => (st, .fuelOut)
  | _ + 1, [], _, st => (st, .done)
  | fuel + 1, next_id :: rest, data, st =>
    if next_id ∈ st.processed then
      walkList g fuel rest data st
    else
      match findAgent st.agents next_id with
      | none => walkList g fuel rest data st
      | some a =>
        match a.process data st.t (st.t + 1) with
        | (.error e, a2) =>
          ({ st with agents := replaceFirst st.agents next_id a2, t := st.t + 1 }, .fail e)
        | (.ok out, a2) =>
          let st2 : GraphState α :=
            { st with
              agents := replaceFirst st.agents next_id a2
              t := st.t + 1
              results := st.results ++ [out]
              processed := st.processed ++ [next_id] }
          match walkList g fuel (graphSucc g next_id) out st2 with
          | (st3, .done) => walkList g fuel rest data st3
          | (st3, ex) => (st3, ex)

/-- `process_next(agent_id, data)`: iterate the communication graph's
successor list for `agent_id`. -/
def processNext (g : List (String × List String)) (fuel : ℕ) (agent_id : String)
    (data : α) (st : GraphState α) : GraphState α × WalkExit :=
  walkList g fuel (graphSucc g agent_id) data st

/-- Fuel budget used by `execute_graph`; proved sufficient (the
traversal never exhausts it) in the termination theorem. -/
def graphFuel (s : AgentStrand α) : ℕ :=
  (s.agents.map (fun a => (graphSucc s.communication_graph a.id).length + 1)).sum + 1

/-- `AgentStrand.execute_graph(initial_input)`: empty strands get an
error dictionary; otherwise the first agent is the entry point, its
output seeds the depth-first `process_next` traversal. -/
def AgentStrand.execute_graph (s : AgentStrand α) (initial_input : α) (t : ℕ) :
    Except String (StrandResult α) × AgentStrand α × ℕ :=
  match s.agents with
  | [] => (.ok (.errorValue "No agents in strand"), s, t)
  | a0 :: _ =>
    match a0.process initial_input t (t + 1) with
    | (.error e, a1) =>
      (.error e, { s with agents := replaceFirst s.agents a0.id a1 }, t + 1)
    | (.ok out, a1) =>
      let st0 : GraphState α := ⟨replaceFirst s.agents a0.id a1, [a0.id], [out], t + 1⟩
      match processNext s.communication_graph (graphFuel s) a0.id out st0 with
      | (st1, .fail e) => (.error e, { s with agents := st1.agents }, st1.t)
      | (st1, .fuelOut) => (.error "fuel exhausted", { s with agents := st1.agents }, st1.t)
      | (st1, .done) =>
        (.ok (.success s.name st1.results none), { s with agents := st1.agents }, st1.t)

/-- `MultiAgentSystem`: registry of strands keyed by strand name. -/
structure MultiAgentSystem (α : Type) where
  name : String
  strands : List (String × AgentStrand α)

/-- `add_strand`: register under the strand's name (shadowing any
previous strand of the same name, like a dict assignment). -/
def MultiAgentSystem.add_strand (sys : MultiAgentSystem α) (strand : AgentStrand α) :
    MultiAgentSystem α :=
  { sys with strands := (strand.name, strand) :: sys.strands }

/-- Write back the (mutated) strand object under its key. -/
def setStrand : List (String × AgentStrand α) → String → AgentStrand α →
    List (String × AgentStrand α)
  | [], _, _ => []
  | (k, s) :: rest, nm, s' =>
    if k == nm then (k, s') :: rest else (k, s) :: setStrand rest nm s'

/-- `MultiAgentSystem.execute_strand(strand_name, input_data, mode)`:
structured error values for an unknown strand name or an unknown mode,
otherwise delegate to the matching strand method. -/
def MultiAgentSystem.execute_strand (sys : MultiAgentSystem α) (strand_name : String)
    (input_data : α) (mode : String) (t : ℕ) :
    Except String (StrandResult α) × MultiAgentSystem α × ℕ :=
  match sys.strands.lookup strand_name with
  | none => (.ok (.errorValue ("Strand " ++ strand_name ++ " not found")), sys, t)
  | some strand =>
    if mode == "sequential" then
      let r := strand.execute_sequential input_data t
      (r.1, { sys with strands := setStrand sys.strands strand_name r.2.1 }, r.2.2)
    else if mode == "parallel" then
      let r := strand.execute_parallel input_data t
      (r.1, { sys with strands := setStrand sys.strands strand_name r.2.1 }, r.2.2)
    else if mode == "graph" then
      let r := strand.execute_graph input_data t
      (r.1, { sys with strands := setStrand sys.strands strand_name r.2.1 }, r.2.2)
    else
      (.ok (.errorValue ("Unknown execution mode: " ++ mode)), sys, t)

/-- Spec-side relation, following the spec's words for sequential runs:
"each agent's output becomes the next agent's input"; `SeqChain agents
input outs` says `outs` are the per-agent outputs, in list order, where
agent 0 receives `input` and agent i receives agent (i-1)'s output. -/
inductive SeqChain : List (Agent α) → α → List α → Prop
  | nil (d : α) : SeqChain [] d []
  | cons (a : Agent α) (rest : List (Agent α)) (d out : α) (outs : List α) :
      a.logic d = .ok out → SeqChain rest out outs →
      SeqChain (a :: rest) d (out :: outs)

/-! ### Agent envelope lemmas -/

theorem Agent.processTry_error (a : Agent α) (input : α) (t₁ t₂ : ℕ) (e : String)
    (h : a.logic input = .error e) :
    a.processTry input t₁ t₂ = (.error e,
      { a with
        status := AgentStatus.error
        metrics := { a.metrics with
          failed_executions := a.metrics.failed_executions + 1 }
        execution_log := a.execution_log ++ [⟨t₂, a.name, "error", "Error: " ++ e⟩] }) := by
  simp only [Agent.processTry, Agent.log, h]

theorem Agent.processTry_ok (a : Agent α) (input : α) (t₁ t₂ : ℕ) (out : α)
    (h : a.logic input = .ok out) :
    a.processTry input t₁ t₂ = (.ok out,
      { a with
        status := AgentStatus.completed
        metrics := { a.metrics with
          successful_executions := a.metrics.successful_executions + 1
          total_time := a.metrics.total_time + (t₂ - t₁) }
        execution_log := a.execution_log ++
          [⟨t₂, a.name, "info",
            "Completed processing in " ++ toString (t₂ - t₁) ++ "s"⟩] }) := by
  simp only [Agent.processTry, Agent.log, h]

theorem Agent.process_error (a : Agent α) (input : α) (t₁ t₂ : ℕ) (e : String)
    (h : a.logic input = .error e) :
    a.process input t₁ t₂ = (.error e,
      { a with
        status := AgentStatus.idle
        metrics := { a.metrics with
          total_executions := a.metrics.total_executions + 1
          failed_executions := a.metrics.failed_executions + 1 }
        execution_log := a.execution_log ++ [⟨t₂, a.name, "error", "Error: " ++ e⟩] }) := by
  simp only [Agent.process, Agent.processTry_error a input t₁ t₂ e h, Agent.processFinally]

theorem Agent.process_ok (a : Agent α) (input : α) (t₁ t₂ : ℕ) (out : α)
    (h : a.logic input = .ok out) :
    a.process input t₁ t₂ = (.ok out,
      { a with
        status := AgentStatus.idle
        metrics := { a.metrics with
          total_executions := a.metrics.total_executions + 1
          successful_executions := a.metrics.successful_executions + 1
          total_time := a.metrics.total_time + (t₂ - t₁) }
        execution_log := a.execution_log ++
          [⟨t₂, a.name, "info",
            "Completed processing in " ++ toString (t₂ - t₁) ++ "s"⟩] }) := by
  simp only [Agent.process, Agent.processTry_ok a input t₁ t₂ out h, Agent.processFinally]

theorem Agent.process_fst (a : Agent α) (input : α) (t₁ t₂ : ℕ) :
    (a.process input t₁ t₂).1 = a.logic input := by
  cases h : a.logic input with
  | ok out => simp [Agent.process_ok a input t₁ t₂ out h]
  | error e => simp [Agent.process_error a input t₁ t₂ e h]

theorem Agent.process_id (a : Agent α) (input : α) (t₁ t₂ : ℕ) :
    (a.process input t₁ t₂).2.id = a.id := by
  cases h : a.logic input with
  | ok out => simp [Agent.process_ok a input t₁ t₂ out h]
  | error e => simp [Agent.process_error a input t₁ t₂ e h]

theorem Agent.process_total (a : Agent α) (input : α) (t₁ t₂ : ℕ) :
    (a.process input t₁ t₂).2.metrics.total_executions
      = a.metrics.total_executions + 1 := by
  cases h : a.logic input with
  | ok out => simp [Agent.process_ok a input t₁ t₂ out h]
  | error e => simp [Agent.process_error a input t₁ t₂ e h]

theorem Agent.process_status (a : Agent α) (input : α) (t₁ t₂ : ℕ) :
    (a.process input t₁ t₂).2.status = AgentStatus.idle := by
  cases h : a.logic input with
  | ok out => simp [Agent.process_ok a input t₁ t₂ out h]
  | error e => simp [Agent.process_error a input t₁ t₂ e h]

/-! ### Witness fixtures: small concrete agents, strands and memories -/

def mkOkAgent (nm : String) : Agent ℕ :=
  { id := nm, name := nm, role := "worker", status := AgentStatus.idle,
    execution_log := [], metrics := ⟨0, 0, 0, 0⟩, logic := fun n => .ok (n + 1) }

def errAgent : Agent ℕ :=
  { id := "e1", name := "err", role := "worker", status := AgentStatus.idle,
    execution_log := [], metrics := ⟨0, 0, 0, 0⟩, logic := fun _ => .error "boom" }

def busyAgent : Agent ℕ :=
  { id := "b1", name := "busy", role := "worker", status := AgentStatus.idle,
    execution_log := [], metrics := ⟨4, 3, 1, 8⟩, logic := fun n => .ok n }

/-! ### C3: failure handling in `Agent.process` -/

/-- C3: for every call to `Agent.process`, if the logic function fails
then status is set to Error, `failed_executions` is incremented, an
error-level log entry is appended, and the failure is re-raised to the
caller; and in all cases `total_executions` is incremented exactly once
and status is reset to Idle before `process` returns control. -/
theorem C3_process_failure_handling (a : Agent α) (input : α) (t₁ t₂ : ℕ) :
    (∀ e, a.logic input = .error e →
      (a.processTry input t₁ t₂).2.status = AgentStatus.error ∧
      (a.processTry input t₁ t₂).2.metrics.failed_executions
        = a.metrics.failed_executions + 1 ∧
      (a.processTry input t₁ t₂).2.execution_log
        = a.execution_log ++ [⟨t₂, a.name, "error", "Error: " ++ e⟩] ∧
      (a.process input t₁ t₂).1 = .error e) ∧
    (a.process input t₁ t₂).2.metrics.total_executions
      = a.metrics.total_executions + 1 ∧
    (a.process input t₁ t₂).2.status = AgentStatus.idle := by
  refine ⟨fun e h => ?_, Agent.process_total a input t₁ t₂,
    Agent.process_status a input t₁ t₂⟩
  simp [Agent.processTry_error a input t₁ t₂ e h, Agent.process_error a input t₁ t₂ e h]

theorem C3_witness :
    (errAgent.processTry 0 0 1).2.status = AgentStatus.error ∧
    (errAgent.processTry 0 0 1).2.metrics.failed_executions = 1 ∧
    (errAgent.process 0 0 1).1 = .error "boom" ∧
    (errAgent.process 0 0 1).2.metrics.total_executions = 1 ∧
    (errAgent.process 0 0 1).2.status = AgentStatus.idle := by
  have h := C3_process_failure_handling errAgent 0 0 1
  have h1 := h.1 "boom" rfl
  exact ⟨h1.1, by simpa using h1.2.1, h1.2.2.2, by simpa using h.2.1, h.2.2⟩

/-! ### C10: execution counter invariant of `Agent.process` -/

/-- C10: each `Agent.process` call increments `total_executions` by
exactly one and exactly one of `successful_executions` /
`failed_executions` by exactly one, no counter decreases, and the
invariant `total_executions = successful_executions +
failed_executions` is preserved. -/
theorem C10_counter_invariant (a : Agent α) (input : α) (t₁ t₂ : ℕ) :
    (a.process input t₁ t₂).2.metrics.total_executions
      = a.metrics.total_executions + 1 ∧
    (((a.process input t₁ t₂).2.metrics.successful_executions
        = a.metrics.successful_executions + 1 ∧
      (a.process input t₁ t₂).2.metrics.failed_executions
        = a.metrics.failed_executions) ∨
     ((a.process input t₁ t₂).2.metrics.successful_executions
        = a.metrics.successful_executions ∧
      (a.process input t₁ t₂).2.metrics.failed_executions
        = a.metrics.failed_executions + 1)) ∧
    a.metrics.successful_executions
      ≤ (a.process input t₁ t₂).2.metrics.successful_executions ∧
    a.metrics.failed_executions
      ≤ (a.process input t₁ t₂).2.metrics.failed_executions ∧
    (a.metrics.total_executions
        = a.metrics.successful_executions + a.metrics.failed_executions →
      (a.process input t₁ t₂).2.metrics.total_executions
        = (a.process input t₁ t₂).2.metrics.successful_executions
          + (a.process input t₁ t₂).2.metrics.failed_executions) := by
  cases h : a.logic input with
  | ok out =>
    rw [Agent.process_ok a input t₁ t₂ out h]
    refine ⟨rfl, Or.inl ⟨rfl, rfl⟩, Nat.le_succ _, Nat.le_refl _, fun hinv => ?_⟩
    show a.metrics.total_executions + 1
      = a.metrics.successful_executions + 1 + a.metrics.failed_executions
    omega
  | error e =>
    rw [Agent.process_error a input t₁ t₂ e h]
    refine ⟨rfl, Or.inr ⟨rfl, rfl⟩, Nat.le_refl _, Nat.le_succ _, fun hinv => ?_⟩
    show a.metrics.total_executions + 1
      = a.metrics.successful_executions + (a.metrics.failed_executions + 1)
    omega

theorem C10_witness :
    ((mkOkAgent "w").process 0 0 1).2.metrics.total_executions
      = ((mkOkAgent "w").process 0 0 1).2.metrics.successful_executions
        + ((mkOkAgent "w").process 0 0 1).2.metrics.failed_executions := by
  exact (C10_counter_invariant (mkOkAgent "w") 0 0 1).2.2.2.2 rfl

/-! ### C8: derived metrics and the division-by-zero guard -/

/-- C8: `get_metrics` on an agent with zero executions yields
`success_rate = 0` and `average_execution_time = 0` (no division by
zero); with positive executions it yields the quotient formulas. -/
theorem C8_get_metrics_division_guard (a : Agent α) :
    (a.metrics.total_executions = 0 →
      a.get_metrics.success_rate = 0 ∧
      a.get_metrics.average_execution_time = 0) ∧
    (0 < a.metrics.total_executions →
      a.get_metrics.success_rate
        = (a.metrics.successful_executions : ℚ)
            / (a.metrics.total_executions : ℚ) * 100 ∧
      a.get_metrics.average_execution_time
        = (a.metrics.total_time : ℚ) / (a.metrics.total_executions : ℚ)) := by
  constructor
  · intro h
    simp [Agent.get_metrics, h]
  · intro h
    simp [Agent.get_metrics, h]

theorem C8_witness :
    ((mkOkAgent "w").get_metrics.success_rate = 0 ∧
      (mkOkAgent "w").get_metrics.average_execution_time = 0) ∧
    (busyAgent.get_metrics.success_rate = 75 ∧
      busyAgent.get_metrics.average_execution_time = 2) := by
  constructor
  · exact (C8_get_metrics_division_guard (mkOkAgent "w")).1 rfl
  · have h := (C8_get_metrics_division_guard busyAgent).2 (by decide)
    refine ⟨?_, ?_⟩
    · rw [h.1]; norm_num [busyAgent]
    · rw [h.2]; norm_num [busyAgent]

/-! ### C6: shared memory store / retrieve / search_history -/

/-- C6: `store(key, value, persistent := true)` writes short-term and
appends exactly one `{key, value, timestamp}` entry to long-term;
`persistent := false` leaves long-term unchanged; `retrieve` right
after either store returns the value; `search_history` returns exactly
the matching long-term entries, so a persistent store adds exactly one
matching entry, with a timestamp later than or equal to every prior
entry when the clock is monotone. -/
theorem C6_memory_store (m : AgentMemory α) (key : String) (value : α) (now : ℕ) :
    ((m.store key value true now).retrieve key = some value ∧
     (m.store key value true now).long_term = m.long_term ++ [⟨key, value, now⟩] ∧
     (m.store key value true now).search_history key
        = m.search_history key ++ [⟨key, value, now⟩]) ∧
    ((m.store key value false now).retrieve key = some value ∧
     (m.store key value false now).long_term = m.long_term) ∧
    ((∀ e ∈ m.long_term, e.timestamp ≤ now) →
      ∀ e ∈ (m.store key value true now).search_history key, e.timestamp ≤ now) := by
  have hs : (m.store key value true now).search_history key
      = m.search_history key ++ [⟨key, value, now⟩] := by
    simp [AgentMemory.store, AgentMemory.search_history, List.filter_append]
  refine ⟨⟨?_, rfl, hs⟩, ⟨?_, rfl⟩, ?_⟩
  · simp [AgentMemory.store, AgentMemory.retrieve, List.lookup]
  · simp [AgentMemory.store, AgentMemory.retrieve, List.lookup]
  · intro hmono e he
    rw [hs] at he
    rcases List.mem_append.1 he with he1 | he1
    · exact hmono e (List.mem_of_mem_filter he1)
    · rcases List.mem_singleton.1 he1 with rfl
      exact le_refl now

def memFixture : AgentMemory ℕ := ⟨[], [⟨"k", 5, 2⟩], []⟩

theorem C6_witness :
    (memFixture.store "k" 7 true 3).retrieve "k" = some 7 ∧
    (memFixture.store "k" 7 true 3).search_history "k"
      = [⟨"k", 5, 2⟩, ⟨"k", 7, 3⟩] ∧
    (∀ e ∈ (memFixture.store "k" 7 true 3).search_history "k", e.timestamp ≤ 3) := by
  have h := C6_memory_store memFixture "k" 7 3
  refine ⟨h.1.1, ?_, h.2.2 (by decide)⟩
  rw [h.1.2.2]
  decide

theorem runSequential_ok :
    ∀ (agents : List (Agent α)) (input : α) (t : ℕ) (results : List α) (fin : α)
      (ags : List (Agent α)) (t2 : ℕ),
      runSequential agents input t = (.ok (results, fin), ags, t2) →
      SeqChain agents input results ∧ fin = results.getLastD input := by
  intro agents
  induction agents with
  | nil =>
    intro input t results fin ags t2 h
    simp only [runSequential, Prod.mk.injEq, Except.ok.injEq] at h
    obtain ⟨⟨hr, hf⟩, -, -⟩ := h
    subst hr; subst hf
    exact ⟨SeqChain.nil input, rfl⟩
  | cons a rest ih =>
    intro input t results fin ags t2 h
    simp only [runSequential] at h
    cases hl : a.logic input with
    | error e =>
      rw [Agent.process_error a input t (t + 1) e hl] at h
      simp at h
    | ok out =>
      rw [Agent.process_ok a input t (t + 1) out hl] at h
      simp only [] at h
      cases hr : runSequential rest out (t + 1) with
      | mk r1 p1 =>
        cases p1 with
        | mk rest1 t3 =>
          rw [hr] at h
          cases r1 with
          | error e => simp at h
          | ok pr =>
            cases pr with
            | mk results' fin' =>
              simp only [Prod.mk.injEq, Except.ok.injEq] at h
              obtain ⟨⟨hres, hfin⟩, -, -⟩ := h
              obtain ⟨hc, hf⟩ := ih out (t + 1) results' fin' rest1 t3 hr
              rw [← hres, ← hfin]
              refine ⟨SeqChain.cons a rest input out results' hl hc, ?_⟩
              rw [hf, List.getLastD_cons]

theorem runSequential_error :
    ∀ (agents : List (Agent α)) (input : α) (t : ℕ) (e : String)
      (ags : List (Agent α)) (t2 : ℕ),
      runSequential agents input t = (.error e, ags, t2) →
      ∃ k a outs, agents[k]? = some a ∧ SeqChain (agents.take k) input outs ∧
        a.logic (outs.getLastD input) = .error e ∧
        ags.drop (k + 1) = agents.drop (k + 1) := by
  intro agents
  induction agents with
  | nil =>
    intro input t e ags t2 h
    simp [runSequential] at h
  | cons a rest ih =>
    intro input t e ags t2 h
    simp only [runSequential] at h
    cases hl : a.logic input with
    | error e' =>
      rw [Agent.process_error a input t (t + 1) e' hl] at h
      simp only [] at h
      simp only [Prod.mk.injEq, Except.error.injEq] at h
      obtain ⟨he, hags, -⟩ := h
      refine ⟨0, a, [], by simp, SeqChain.nil input, ?_, ?_⟩
      · show a.logic input = .error e
        rw [hl, he]
      · rw [← hags]
        simp
    | ok out =>
      rw [Agent.process_ok a input t (t + 1) out hl] at h
      simp only [] at h
      cases hr : runSequential rest out (t + 1) with
      | mk r1 p1 =>
        cases p1 with
        | mk rest1 t3 =>
          rw [hr] at h
          cases r1 with
          | ok pr =>
            cases pr
            simp at h
          | error e' =>
            simp only [Prod.mk.injEq, Except.error.injEq] at h
            obtain ⟨he, hags, -⟩ := h
            obtain ⟨k, a', outs, hk, hchain, hfail, hdrop⟩ := ih out (t + 1) e' rest1 t3 hr
            rw [he] at hfail
            refine ⟨k + 1, a', out :: outs, ?_, ?_, ?_, ?_⟩
            · simpa using hk
            · exact SeqChain.cons a (rest.take k) input out outs hl hchain
            · rw [List.getLastD_cons]; exact hfail
            · rw [← hags]
              simp only [List.drop_succ_cons]
              exact hdrop

/-- C1: a sequential run that returns processes the agents in list
order with each agent fed the previous agent's output (`SeqChain`),
returns the per-agent outputs in that order and the last output as
`final_output`; a failing run propagates the failure with no partial
result, the failing agent's logic fails on its chained input, and all
subsequent agents are left untouched. -/
theorem C1_sequential_chaining (s : AgentStrand α) (input : α) (t : ℕ) :
    (∀ nm results fin s' t2,
      s.execute_sequential input t = (.ok (.success nm results fin), s', t2) →
      nm = s.name ∧ SeqChain s.agents input results ∧
        fin = some (results.getLastD input)) ∧
    (∀ e s' t2,
      s.execute_sequential input t = (.error e, s', t2) →
      ∃ k a outs, s.agents[k]? = some a ∧ SeqChain (s.agents.take k) input outs ∧
        a.logic (outs.getLastD input) = .error e ∧
        s'.agents.drop (k + 1) = s.agents.drop (k + 1)) := by
  constructor
  · intro nm results fin s' t2 h
    simp only [AgentStrand.execute_sequential] at h
    cases hr : runSequential s.agents input t with
    | mk r1 p1 =>
      cases p1 with
      | mk ags t3 =>
        rw [hr] at h
        cases r1 with
        | error e => simp at h
        | ok pr =>
          cases pr with
          | mk results' fin' =>
            simp only [Prod.mk.injEq, Except.ok.injEq, StrandResult.success.injEq] at h
            obtain ⟨⟨hnm, hres, hfin⟩, -, -⟩ := h
            obtain ⟨hc, hf⟩ := runSequential_ok s.agents input t results' fin' ags t3 hr
            refine ⟨hnm.symm, ?_, ?_⟩
            · rw [← hres]; exact hc
            · rw [← hfin, hf, hres]
  · intro e s' t2 h
    simp only [AgentStrand.execute_sequential] at h
    cases hr : runSequential s.agents input t with
    | mk r1 p1 =>
      cases p1 with
      | mk ags t3 =>
        rw [hr] at h
        cases r1 with
        | ok pr =>
          cases pr
          simp at h
        | error e' =>
          simp only [Prod.mk.injEq, Except.error.injEq] at h
          obtain ⟨he, hs, -⟩ := h
          obtain ⟨k, a', outs, hk, hchain, hfail, hdrop⟩ :=
            runSequential_error s.agents input t e' ags t3 hr
          rw [he] at hfail
          refine ⟨k, a', outs, hk, hchain, hfail, ?_⟩
          rw [← hs]
          exact hdrop

def okStrand : AgentStrand ℕ :=
  { name := "seq", agents := [mkOkAgent "a1", mkOkAgent "a2"], communication_graph := [] }

def failStrand : AgentStrand ℕ :=
  { name := "seqf", agents := [mkOkAgent "a1", errAgent], communication_graph := [] }

theorem C1_witness :
    SeqChain okStrand.agents 0 [1, 2] ∧
    (∃ k a outs, failStrand.agents[k]? = some a ∧
      SeqChain (failStrand.agents.take k) 0 outs ∧
      a.logic (outs.getLastD 0) = .error "boom" ∧
      (failStrand.execute_sequential 0 0).2.1.agents.drop (k + 1)
        = failStrand.agents.drop (k + 1)) := by
  constructor
  · have h1 : (okStrand.execute_sequential 0 0).1
        = .ok (.success "seq" [1, 2] (some 2)) := rfl
    have h : okStrand.execute_sequential 0 0
        = (.ok (.success "seq" [1, 2] (some 2)),
           (okStrand.execute_sequential 0 0).2.1,
           (okStrand.execute_sequential 0 0).2.2) := by
      rw [← h1]
    exact ((C1_sequential_chaining okStrand 0 0).1 "seq" [1, 2] (some 2) _ _ h).2.1
  · have h1 : (failStrand.execute_sequential 0 0).1 = .error "boom" := rfl
    have h : failStrand.execute_sequential 0 0
        = (.error "boom",
           (failStrand.execute_sequential 0 0).2.1,
           (failStrand.execute_sequential 0 0).2.2) := by
      rw [← h1]
    exact (C1_sequential_chaining failStrand 0 0).2 "boom" _ _ h

theorem collectExcept_ok :
    ∀ (l : List (Except String α)) (rs : List α),
      collectExcept l = .ok rs → l = rs.map Except.ok := by
  intro l
  induction l with
  | nil =>
    intro rs h
    simp only [collectExcept, Except.ok.injEq] at h
    rw [← h]
    rfl
  | cons x rest ih =>
    intro rs h
    cases x with
    | error e => simp [collectExcept] at h
    | ok v =>
      simp only [collectExcept] at h
      cases hr : collectExcept rest with
      | error e => rw [hr] at h; simp at h
      | ok xs =>
        rw [hr] at h
        simp only [Except.ok.injEq] at h
        rw [← h]
        simp [ih xs hr]

theorem collectExcept_error :
    ∀ (l : List (Except String α)) (e : String),
      collectExcept l = .error e → Except.error e ∈ l := by
  intro l
  induction l with
  | nil => intro e h; simp [collectExcept] at h
  | cons x rest ih =>
    intro e h
    cases x with
    | error e' =>
      simp only [collectExcept, Except.error.injEq] at h
      rw [h]
      exact List.mem_cons_self _ _
    | ok v =>
      simp only [collectExcept] at h
      cases hr : collectExcept rest with
      | error e' =>
        rw [hr] at h
        simp only [Except.error.injEq] at h
        exact List.mem_cons_of_mem _ (h ▸ ih e' hr)
      | ok xs => rw [hr] at h; simp at h

theorem collectExcept_mem_error :
    ∀ (l : List (Except String α)) (e : String), Except.error e ∈ l →
      ∃ e', collectExcept l = .error e' := by
  intro l
  induction l with
  | nil => intro e h; simp at h
  | cons x rest ih =>
    intro e h
    cases x with
    | error e' => exact ⟨e', rfl⟩
    | ok v =>
      rcases List.mem_cons.1 h with h1 | h1
      · exact absurd h1 (by simp)
      · obtain ⟨e', hr⟩ := ih e h1
        refine ⟨e', ?_⟩
        simp only [collectExcept]
        rw [hr]

theorem execute_parallel_agents (s : AgentStrand α) (input : α) (t : ℕ) :
    ((s.execute_parallel input t).2.1).agents
      = s.agents.map (fun a => (a.process input t (t + 1)).2) := by
  simp only [AgentStrand.execute_parallel]
  cases hc : collectExcept
      (List.map Prod.fst (List.map (fun a => a.process input t (t + 1)) s.agents)) with
  | error e => simp only [List.map_map]; rfl
  | ok rs => simp only [List.map_map]; rfl

/-- C4: in parallel mode every agent's process is invoked on the same
initial input (outputs are not chained): a successful run returns one
output per agent, in agent order, each equal to that agent's logic
applied to the initial input; if any agent fails the run fails
(first-failure-wins) and returns no result list; and every agent's
process call happens (its execution counter advances) whether or not
the run fails. -/
theorem C4_parallel_semantics (s : AgentStrand α) (input : α) (t : ℕ) :
    (∀ nm results fin s' t2,
      s.execute_parallel input t = (.ok (.success nm results fin), s', t2) →
      nm = s.name ∧ fin = none ∧ results.length = s.agents.length ∧
      ∀ (i : ℕ) (a : Agent α), s.agents[i]? = some a →
        ∃ out, a.logic input = .ok out ∧ results[i]? = some out) ∧
    ((∃ a ∈ s.agents, ∃ e, a.logic input = .error e) →
      ∃ e s' t2, s.execute_parallel input t = (.error e, s', t2)) ∧
    (∀ e s' t2, s.execute_parallel input t = (.error e, s', t2) →
      ∃ a ∈ s.agents, a.logic input = .error e) ∧
    (∀ (i : ℕ) (a : Agent α), s.agents[i]? = some a →
      ∃ a', ((s.execute_parallel input t).2.1).agents[i]? = some a' ∧
        a'.metrics.total_executions = a.metrics.total_executions + 1) := by
  have hfst : List.map Prod.fst (List.map (fun a => a.process input t (t + 1)) s.agents)
      = s.agents.map (fun a => a.logic input) := by
    rw [List.map_map]
    exact List.map_congr_left (fun a _ => Agent.process_fst a input t (t + 1))
  refine ⟨?_, ?_, ?_, ?_⟩
  · intro nm results fin s' t2 h
    simp only [AgentStrand.execute_parallel] at h
    cases hc : collectExcept
        (List.map Prod.fst (List.map (fun a => a.process input t (t + 1)) s.agents)) with
    | error e =>
      rw [hc] at h
      simp at h
    | ok rs =>
      rw [hc] at h
      simp only [] at h
      simp only [Prod.mk.injEq, Except.ok.injEq, StrandResult.success.injEq] at h
      obtain ⟨⟨hnm, hres, hfin⟩, -, -⟩ := h
      have hl := collectExcept_ok _ rs hc
      rw [hfst] at hl
      refine ⟨hnm.symm, hfin.symm, ?_, ?_⟩
      · have hlen := congrArg List.length hl
        simp only [List.length_map] at hlen
        rw [← hres]
        exact hlen.symm
      · intro i a hi
        have hp := congrArg (fun l => l[i]?) hl
        simp only [List.getElem?_map, hi] at hp
        cases hri : rs[i]? with
        | none => rw [hri] at hp; simp at hp
        | some out =>
          rw [hri] at hp
          simp only [Option.map_some'] at hp
          refine ⟨out, Option.some.inj hp, ?_⟩
          rw [← hres]
          exact hri
  · rintro ⟨a, ha, e, he⟩
    have hmem : Except.error e
        ∈ List.map Prod.fst (List.map (fun a => a.process input t (t + 1)) s.agents) := by
      rw [hfst]
      exact List.mem_map.2 ⟨a, ha, by rw [he]⟩
    obtain ⟨e', hce⟩ := collectExcept_mem_error _ e hmem
    refine ⟨e',
      { s with agents :=
          List.map Prod.snd (List.map (fun a => a.process input t (t + 1)) s.agents) },
      t + 1, ?_⟩
    simp only [AgentStrand.execute_parallel]
    rw [hce]
  · intro e s' t2 h
    simp only [AgentStrand.execute_parallel] at h
    cases hc : collectExcept
        (List.map Prod.fst (List.map (fun a => a.process input t (t + 1)) s.agents)) with
    | ok rs =>
      rw [hc] at h
      simp at h
    | error e' =>
      rw [hc] at h
      simp only [] at h
      simp only [Prod.mk.injEq, Except.error.injEq] at h
      obtain ⟨he, -, -⟩ := h
      have hm := collectExcept_error _ e' hc
      rw [hfst] at hm
      obtain ⟨a, ha, hae⟩ := List.mem_map.1 hm
      exact ⟨a, ha, by rw [hae, he]⟩
  · intro i a hi
    have hags := execute_parallel_agents s input t
    refine ⟨(a.process input t (t + 1)).2, ?_, Agent.process_total a input t (t + 1)⟩
    rw [hags]
    simp only [List.getElem?_map, hi]
    rfl

theorem C4_witness :
    (∃ out, (mkOkAgent "a2").logic 0 = .ok out ∧ ([1, 1] : List ℕ)[1]? = some out) ∧
    (∃ e s' t2, failStrand.execute_parallel 0 0 = (.error e, s', t2)) ∧
    (∃ a', ((okStrand.execute_parallel 0 0).2.1).agents[0]? = some a' ∧
      a'.metrics.total_executions = (mkOkAgent "a1").metrics.total_executions + 1) := by
  refine ⟨?_, ?_, ?_⟩
  · have h1 : (okStrand.execute_parallel 0 0).1 = .ok (.success "seq" [1, 1] none) := rfl
    have h : okStrand.execute_parallel 0 0
        = (.ok (.success "seq" [1, 1] none),
           (okStrand.execute_parallel 0 0).2.1, (okStrand.execute_parallel 0 0).2.2) := by
      rw [← h1]
    exact ((C4_parallel_semantics okStrand 0 0).1 "seq" [1, 1] none _ _ h).2.2.2 1
      (mkOkAgent "a2") (by simp [okStrand])
  · exact (C4_parallel_semantics failStrand 0 0).2.1
      ⟨errAgent, by simp [failStrand], "boom", rfl⟩
  · exact (C4_parallel_semantics okStrand 0 0).2.2.2 0 (mkOkAgent "a1") (by simp [okStrand])

/-- C5: `execute_strand` returns a structured not-found error value
(no exception) for an unregistered name, a structured unknown-mode
error value for a registered name with a mode outside
sequential/parallel/graph, and otherwise delegates to the matching
strand method, returning its result unchanged. -/
theorem C5_execute_strand_dispatch (sys : MultiAgentSystem α) (strand_name : String)
    (input : α) (mode : String) (t : ℕ) :
    (sys.strands.lookup strand_name = none →
      sys.execute_strand strand_name input mode t
        = (.ok (.errorValue ("Strand " ++ strand_name ++ " not found")), sys, t)) ∧
    (∀ strand, sys.strands.lookup strand_name = some strand →
      (mode ≠ "sequential" → mode ≠ "parallel" → mode ≠ "graph" →
        sys.execute_strand strand_name input mode t
          = (.ok (.errorValue ("Unknown execution mode: " ++ mode)), sys, t)) ∧
      (mode = "sequential" →
        (sys.execute_strand strand_name input mode t).1
          = (strand.execute_sequential input t).1) ∧
      (mode = "parallel" →
        (sys.execute_strand strand_name input mode t).1
          = (strand.execute_parallel input t).1) ∧
      (mode = "graph" →
        (sys.execute_strand strand_name input mode t).1
          = (strand.execute_graph input t).1)) := by
  constructor
  · intro h
    simp [MultiAgentSystem.execute_strand, h]
  · intro strand h
    refine ⟨?_, ?_, ?_, ?_⟩
    · intro h1 h2 h3
      simp [MultiAgentSystem.execute_strand, h, h1, h2, h3]
    · intro h1
      subst h1
      simp [MultiAgentSystem.execute_strand, h]
    · intro h1
      subst h1
      simp [MultiAgentSystem.execute_strand, h]
    · intro h1
      subst h1
      simp [MultiAgentSystem.execute_strand, h]

def emptySystem : MultiAgentSystem ℕ := { name := "sys", strands := [] }

def okSystem : MultiAgentSystem ℕ := emptySystem.add_strand okStrand

theorem C5_witness :
    emptySystem.execute_strand "missing" 0 "sequential" 0
      = (.ok (.errorValue ("Strand " ++ "missing" ++ " not found")), emptySystem, 0) ∧
    okSystem.execute_strand "seq" 0 "bogus" 0
      = (.ok (.errorValue ("Unknown execution mode: " ++ "bogus")), okSystem, 0) ∧
    (okSystem.execute_strand "seq" 0 "sequential" 0).1
      = (okStrand.execute_sequential 0 0).1 := by
  have hlook : okSystem.strands.lookup "seq" = some okStrand := rfl
  refine ⟨?_, ?_, ?_⟩
  · exact (C5_execute_strand_dispatch emptySystem "missing" 0 "sequential" 0).1 rfl
  · exact (((C5_execute_strand_dispatch okSystem "seq" 0 "bogus" 0).2 okStrand hlook).1
      (by decide) (by decide) (by decide))
  · exact (((C5_execute_strand_dispatch okSystem "seq" 0 "sequential" 0).2 okStrand
      hlook).2.1 rfl)

/-- Invariant relating a traversal state to any later state of the same
run: the visited list and the results list are only ever extended, in
lockstep, visited ids stay duplicate-free, and the strand's agent ids
are unchanged. -/
def WalkQ (st st' : GraphState α) : Prop :=
  (∃ l res, st'.processed = st.processed ++ l ∧ st'.results = st.results ++ res ∧
    l.length = res.length) ∧
  (st.processed.Nodup → st'.processed.Nodup) ∧
  st'.agents.map Agent.id = st.agents.map Agent.id

theorem walkQ_refl (st : GraphState α) : WalkQ st st :=
  ⟨⟨[], [], by simp, by simp, rfl⟩, id, rfl⟩

theorem walkQ_trans {s1 s2 s3 : GraphState α} (h1 : WalkQ s1 s2) (h2 : WalkQ s2 s3) :
    WalkQ s1 s3 := by
  obtain ⟨⟨l1, r1, hp1, hr1, hl1⟩, hn1, ha1⟩ := h1
  obtain ⟨⟨l2, r2, hp2, hr2, hl2⟩, hn2, ha2⟩ := h2
  refine ⟨⟨l1 ++ l2, r1 ++ r2, ?_, ?_, ?_⟩, fun h => hn2 (hn1 h), ha2.trans ha1⟩
  · rw [hp2, hp1, List.append_assoc]
  · rw [hr2, hr1, List.append_assoc]
  · simp [hl1, hl2]

theorem findAgent_some (agents : List (Agent α)) (agent_id : String) (a : Agent α)
    (h : findAgent agents agent_id = some a) : a ∈ agents ∧ a.id = agent_id := by
  refine ⟨List.mem_of_find?_eq_some h, ?_⟩
  have h2 := List.find?_some h
  simpa using h2

theorem replaceFirst_map_id (agents : List (Agent α)) (agent_id : String) (a' : Agent α)
    (h : a'.id = agent_id) :
    (replaceFirst agents agent_id a').map Agent.id = agents.map Agent.id := by
  induction agents with
  | nil => rfl
  | cons a rest ih =>
    by_cases hid : a.id = agent_id
    · simp [replaceFirst, hid, h]
    · simp [replaceFirst, hid, ih]

theorem walkList_walkQ (g : List (String × List String)) :
    ∀ (fuel : ℕ) (succs : List String) (data : α) (st : GraphState α),
      WalkQ st (walkList g fuel succs data st).1 := by
  intro fuel
  induction fuel with
  | zero => intro succs data st; exact walkQ_refl st
  | succ fuel ih =>
    intro succs data st
    match succs with
    | [] => exact walkQ_refl st
    | next_id :: rest =>
      simp only [walkList]
      by_cases hmem : next_id ∈ st.processed
      · rw [if_pos hmem]
        exact ih rest data st
      · rw [if_neg hmem]
        cases hf : findAgent st.agents next_id with
        | none => exact ih rest data st
        | some a =>
          simp only []
          obtain ⟨hfm, hfid⟩ := findAgent_some st.agents next_id a hf
          cases hp : a.process data st.t (st.t + 1) with
          | mk r a2 =>
            have ha2 : a2.id = a.id := by
              have := Agent.process_id a data st.t (st.t + 1)
              rw [hp] at this
              exact this
            cases r with
            | error e =>
              simp only []
              refine ⟨⟨[], [], by simp, by simp, rfl⟩, id, ?_⟩
              exact replaceFirst_map_id st.agents next_id a2 (ha2.trans hfid)
            | ok out =>
              simp only []
              have h1 : WalkQ st
                  ⟨replaceFirst st.agents next_id a2, st.processed ++ [next_id],
                    st.results ++ [out], st.t + 1⟩ := by
                refine ⟨⟨[next_id], [out], rfl, rfl, rfl⟩, ?_, ?_⟩
                · intro hn
                  simp [List.nodup_append, hn, hmem]
                · exact replaceFirst_map_id st.agents next_id a2 (ha2.trans hfid)
              cases hw : walkList g fuel (graphSucc g next_id)
                  out ⟨replaceFirst st.agents next_id a2, st.processed ++ [next_id],
                    st.results ++ [out], st.t + 1⟩ with
              | mk st3 ex =>
                have h2 : WalkQ
                    ⟨replaceFirst st.agents next_id a2, st.processed ++ [next_id],
                      st.results ++ [out], st.t + 1⟩ st3 := by
                  have h3 := ih (graphSucc g next_id) out
                    ⟨replaceFirst st.agents next_id a2, st.processed ++ [next_id],
                      st.results ++ [out], st.t + 1⟩
                  rw [hw] at h3
                  exact h3
                cases ex with
                | done => exact walkQ_trans (walkQ_trans h1 h2) (ih rest data st3)
                | fail e => exact walkQ_trans h1 h2
                | fuelOut => exact walkQ_trans h1 h2

/-- Weight of the not-yet-visited agent ids: an upper bound on the
nesting depth the traversal can still need. -/
def remainingW (g : List (String × List String)) (st : GraphState α) : ℕ :=
  Finset.sum ((st.agents.map Agent.id).toFinset \ st.processed.toFinset)
    (fun i => (graphSucc g i).length + 1)

theorem remainingW_le_of_walkQ (g : List (String × List String)) {st st' : GraphState α}
    (h : WalkQ st st') : remainingW g st' ≤ remainingW g st := by
  obtain ⟨⟨l, res, hp, -, -⟩, -, ha⟩ := h
  unfold remainingW
  rw [ha]
  apply Finset.sum_le_sum_of_subset
  apply Finset.sdiff_subset_sdiff (Finset.Subset.refl _)
  rw [hp, List.toFinset_append]
  exact Finset.subset_union_left

theorem remainingW_step (g : List (String × List String)) (st : GraphState α)
    (next_id : String) (a2 : Agent α) (out : α)
    (hin : next_id ∈ st.agents.map Agent.id) (hnot : next_id ∉ st.processed)
    (hid : a2.id = next_id) :
    remainingW g ⟨replaceFirst st.agents next_id a2, st.processed ++ [next_id],
        st.results ++ [out], st.t + 1⟩
      + ((graphSucc g next_id).length + 1) = remainingW g st := by
  unfold remainingW
  simp only
  rw [replaceFirst_map_id st.agents next_id a2 hid]
  have h1 : (st.agents.map Agent.id).toFinset \ (st.processed ++ [next_id]).toFinset
      = ((st.agents.map Agent.id).toFinset \ st.processed.toFinset).erase next_id := by
    ext x
    simp only [List.toFinset_append, Finset.mem_sdiff, Finset.mem_union, Finset.mem_erase,
      List.toFinset_cons, List.toFinset_nil, List.mem_toFinset, Finset.mem_insert,
      Finset.not_mem_empty, or_false]
    tauto
  rw [h1]
  have hmem : next_id ∈ (st.agents.map Agent.id).toFinset \ st.processed.toFinset := by
    rw [Finset.mem_sdiff, List.mem_toFinset, List.mem_toFinset]
    exact ⟨hin, hnot⟩
  exact Finset.sum_erase_add _ _ hmem

theorem walkList_no_fuelOut (g : List (String × List String)) :
    ∀ (fuel : ℕ) (succs : List String) (data : α) (st : GraphState α),
      succs.length + remainingW g st < fuel →
      (walkList g fuel succs data st).2 ≠ WalkExit.fuelOut := by
  intro fuel
  induction fuel with
  | zero => intro succs data st h; exact absurd h (Nat.not_lt_zero _)
  | succ fuel ih =>
    intro succs data st h
    match succs with
    | [] => simp [walkList]
    | next_id :: rest =>
      simp only [walkList]
      by_cases hmem : next_id ∈ st.processed
      · rw [if_pos hmem]
        apply ih rest data st
        simp only [List.length_cons] at h
        omega
      · rw [if_neg hmem]
        cases hf : findAgent st.agents next_id with
        | none =>
          simp only []
          apply ih rest data st
          simp only [List.length_cons] at h
          omega
        | some a =>
          simp only []
          obtain ⟨hfm, hfid⟩ := findAgent_some st.agents next_id a hf
          cases hp : a.process data st.t (st.t + 1) with
          | mk r a2 =>
            have ha2 : a2.id = a.id := by
              have h5 := Agent.process_id a data st.t (st.t + 1)
              rw [hp] at h5
              exact h5
            cases r with
            | error e => simp
            | ok out =>
              simp only []
              have hin : next_id ∈ st.agents.map Agent.id :=
                List.mem_map.2 ⟨a, hfm, hfid⟩
              have hstep := remainingW_step g st next_id a2 out hin hmem (ha2.trans hfid)
              have hlen : rest.length + 1 + remainingW g st ≤ fuel := by
                simp only [List.length_cons] at h
                omega
              have hinner : (graphSucc g next_id).length
                  + remainingW g ⟨replaceFirst st.agents next_id a2,
                      st.processed ++ [next_id], st.results ++ [out], st.t + 1⟩ < fuel := by
                omega
              cases hw : walkList g fuel (graphSucc g next_id) out
                  ⟨replaceFirst st.agents next_id a2, st.processed ++ [next_id],
                    st.results ++ [out], st.t + 1⟩ with
              | mk st3 ex =>
                have hq : WalkQ ⟨replaceFirst st.agents next_id a2,
                    st.processed ++ [next_id], st.results ++ [out], st.t + 1⟩ st3 := by
                  have h6 := walkList_walkQ g fuel (graphSucc g next_id) out
                    ⟨replaceFirst st.agents next_id a2, st.processed ++ [next_id],
                      st.results ++ [out], st.t + 1⟩
                  rw [hw] at h6
                  exact h6
                cases ex with
                | done =>
                  simp only []
                  apply ih rest data st3
                  have hle := remainingW_le_of_walkQ g hq
                  omega
                | fail e => simp
                | fuelOut =>
                  exact absurd
                    (show (walkList g fuel (graphSucc g next_id) out
                        ⟨replaceFirst st.agents next_id a2, st.processed ++ [next_id],
                          st.results ++ [out], st.t + 1⟩).2 = WalkExit.fuelOut by rw [hw])
                    (ih (graphSucc g next_id) out
                      ⟨replaceFirst st.agents next_id a2, st.processed ++ [next_id],
                        st.results ++ [out], st.t + 1⟩ hinner)

theorem toFinset_sum_le_map_sum (l : List String) (f : String → ℕ) :
    Finset.sum l.toFinset f ≤ (l.map f).sum := by
  induction l with
  | nil => simp
  | cons x xs ih =>
    simp only [List.toFinset_cons, List.map_cons, List.sum_cons]
    by_cases hx : x ∈ xs.toFinset
    · rw [Finset.insert_eq_self.2 hx]
      exact le_trans ih (Nat.le_add_left _ _)
    · rw [Finset.sum_insert hx]
      exact Nat.add_le_add_left ih (f x)

/-- C7: graph-mode traversal terminates on every communication graph,
including cyclic ones and graphs joining two paths at a shared
successor: with any fuel above the weight of the unvisited ids the
traversal never exhausts its fuel (first conjunct), visited ids stay
duplicate-free so no agent is processed twice (second conjunct), and
the concrete budget `graphFuel` used by `execute_graph` always
suffices (third conjunct). -/
theorem C7_graph_termination :
    (∀ (g : List (String × List String)) (fuel : ℕ) (agent_id : String) (data : β)
        (st : GraphState β),
      (graphSucc g agent_id).length + remainingW g st < fuel →
      (processNext g fuel agent_id data st).2 ≠ WalkExit.fuelOut) ∧
    (∀ (g : List (String × List String)) (fuel : ℕ) (agent_id : String) (data : β)
        (st : GraphState β),
      st.processed.Nodup → ((processNext g fuel agent_id data st).1).processed.Nodup) ∧
    (∀ (s : AgentStrand β) (a0 : Agent β) (data : β) (st : GraphState β),
      a0 ∈ s.agents → a0.id ∈ st.processed →
      st.agents.map Agent.id = s.agents.map Agent.id →
      (processNext s.communication_graph (graphFuel s) a0.id data st).2
        ≠ WalkExit.fuelOut) := by
  refine ⟨?_, ?_, ?_⟩
  · intro g fuel agent_id data st h
    exact walkList_no_fuelOut g fuel (graphSucc g agent_id) data st h
  · intro g fuel agent_id data st hn
    exact (walkList_walkQ g fuel (graphSucc g agent_id) data st).2.1 hn
  · intro s a0 data st hmem hproc hids
    apply walkList_no_fuelOut
    set f : String → ℕ := fun i => (graphSucc s.communication_graph i).length + 1 with hfdef
    set A : Finset String := (st.agents.map Agent.id).toFinset with hA
    have hsub : A \ st.processed.toFinset ⊆ A.erase a0.id := by
      intro x hx
      rw [Finset.mem_sdiff] at hx
      rw [Finset.mem_erase]
      refine ⟨?_, hx.1⟩
      intro hxe
      exact hx.2 (by rw [hxe]; exact List.mem_toFinset.2 hproc)
    have h1 : remainingW s.communication_graph st ≤ Finset.sum (A.erase a0.id) f :=
      Finset.sum_le_sum_of_subset hsub
    have ha0A : a0.id ∈ A := by
      rw [hA, List.mem_toFinset, hids]
      exact List.mem_map.2 ⟨a0, hmem, rfl⟩
    have h2 : Finset.sum (A.erase a0.id) f + f a0.id = Finset.sum A f :=
      Finset.sum_erase_add _ _ ha0A
    have h3 : Finset.sum A f ≤ ((st.agents.map Agent.id).map f).sum :=
      toFinset_sum_le_map_sum _ f
    have h4 : ((st.agents.map Agent.id).map f).sum
        = (s.agents.map
            (fun a => (graphSucc s.communication_graph a.id).length + 1)).sum := by
      rw [hids, List.map_map]
      rfl
    have h5 : graphFuel s
        = (s.agents.map
            (fun a => (graphSucc s.communication_graph a.id).length + 1)).sum + 1 := rfl
    have hflen : f a0.id = (graphSucc s.communication_graph a0.id).length + 1 := rfl
    omega

def cycleStrand : AgentStrand ℕ :=
  { name := "cyc", agents := [mkOkAgent "A", mkOkAgent "B"],
    communication_graph := [("A", ["B"]), ("B", ["A"])] }

theorem C7_witness :
    (processNext cycleStrand.communication_graph (graphFuel cycleStrand) "A" 0
        ⟨cycleStrand.agents, ["A"], [0], 0⟩).2 ≠ WalkExit.fuelOut ∧
    ((processNext cycleStrand.communication_graph (graphFuel cycleStrand) "A" 0
        ⟨cycleStrand.agents, ["A"], [0], 0⟩).1).processed.Nodup := by
  constructor
  · exact (C7_graph_termination).2.2 cycleStrand (mkOkAgent "A") 0
      ⟨cycleStrand.agents, ["A"], [0], 0⟩ (by simp [cycleStrand])
      (by simp [mkOkAgent]) rfl
  · exact (C7_graph_termination).2.1 cycleStrand.communication_graph
      (graphFuel cycleStrand) "A" 0 ⟨cycleStrand.agents, ["A"], [0], 0⟩ (by simp)

def gAgent (nm : String) : Agent String :=
  { id := nm, name := nm, role := "worker", status := AgentStatus.idle,
    execution_log := [], metrics := ⟨0, 0, 0, 0⟩, logic := fun _ => .ok nm }

def exampleGraphStrand : AgentStrand String :=
  { name := "g", agents := [gAgent "A", gAgent "B", gAgent "C", gAgent "D"],
    communication_graph := [("A", ["B", "C"]), ("B", ["D"]), ("C", ["D"])] }

/-- C2: on a non-empty strand a successful graph run is produced by
the run's own `process_next` traversal: the entry agent (`agents[0]`)
is processed first and its output is the first result, the traversal's
final visited-id list (`st1.processed`, pinned to the run by the
`process` and `processNext` equations) is duplicate-free — so each
agent id appears in the results at most once — has exactly one id per
result and starts with the entry agent's id; and on the graph
A→[B,C], B→[D], C→[D] with entry A the visitation order is exactly
[A, B, D, C] (depth-first in successor order, D skipped on the second
arrival via C). -/
theorem C2_graph_traversal :
    (∀ (s : AgentStrand β) (a0 : Agent β) (rest : List (Agent β)) (input : β) (t : ℕ)
        (nm : String) (results : List β) (fin : Option β) (s' : AgentStrand β) (t2 : ℕ),
      s.agents = a0 :: rest →
      s.execute_graph input t = (.ok (.success nm results fin), s', t2) →
      nm = s.name ∧ fin = none ∧
      ∃ out a1 st1 results',
        a0.process input t (t + 1) = (.ok out, a1) ∧
        processNext s.communication_graph (graphFuel s) a0.id out
            ⟨replaceFirst s.agents a0.id a1, [a0.id], [out], t + 1⟩ = (st1, .done) ∧
        a0.logic input = .ok out ∧
        results = out :: results' ∧
        results = st1.results ∧
        st1.processed.Nodup ∧
        st1.processed.length = results.length ∧
        st1.processed.head? = some a0.id) ∧
    (exampleGraphStrand.execute_graph "x" 0).1
      = .ok (.success "g" ["A", "B", "D", "C"] none) := by
  constructor
  · intro s a0 rest input t nm results fin s' t2 hag h
    simp only [AgentStrand.execute_graph] at h
    rw [hag] at h
    simp only [] at h
    cases hp : a0.process input t (t + 1) with
    | mk r a1 =>
      rw [hp] at h
      have hfst := Agent.process_fst a0 input t (t + 1)
      rw [hp] at hfst
      cases r with
      | error e => simp at h
      | ok out =>
        simp only [] at h
        cases hw : processNext s.communication_graph (graphFuel s) a0.id out
            ⟨replaceFirst (a0 :: rest) a0.id a1, [a0.id], [out], t + 1⟩ with
        | mk st1 ex =>
          rw [hw] at h
          cases ex with
          | fail e => simp at h
          | fuelOut => simp at h
          | done =>
            simp only [] at h
            simp only [Prod.mk.injEq, Except.ok.injEq, StrandResult.success.injEq] at h
            obtain ⟨⟨hnm, hres, hfin⟩, -, -⟩ := h
            have h6 : WalkQ ⟨replaceFirst (a0 :: rest) a0.id a1, [a0.id], [out], t + 1⟩
                (processNext s.communication_graph (graphFuel s) a0.id out
                  ⟨replaceFirst (a0 :: rest) a0.id a1, [a0.id], [out], t + 1⟩).1 :=
              walkList_walkQ s.communication_graph (graphFuel s)
                (graphSucc s.communication_graph a0.id) out
                ⟨replaceFirst (a0 :: rest) a0.id a1, [a0.id], [out], t + 1⟩
            rw [hw] at h6
            obtain ⟨⟨l, res, hpp, hrr, hll⟩, hnn, -⟩ := h6
            refine ⟨hnm.symm, hfin.symm, out, a1, st1, res, rfl, ?_, hfst.symm, ?_,
              hres.symm, hnn (by simp), ?_, ?_⟩
            · rw [hag]
              exact hw
            · rw [← hres, hrr]
              rfl
            · rw [hpp, ← hres, hrr]
              simp [hll]
            · rw [hpp]
              rfl
  · rfl

theorem C2_witness :
    ∃ (out : String) (a1 : Agent String) (st1 : GraphState String)
      (results' : List String),
      (gAgent "A").process "x" 0 1 = (.ok out, a1) ∧
      processNext exampleGraphStrand.communication_graph (graphFuel exampleGraphStrand)
          (gAgent "A").id out
          ⟨replaceFirst exampleGraphStrand.agents (gAgent "A").id a1,
            [(gAgent "A").id], [out], 1⟩ = (st1, .done) ∧
      (gAgent "A").logic "x" = .ok out ∧
      (["A", "B", "D", "C"] : List String) = out :: results' ∧
      (["A", "B", "D", "C"] : List String) = st1.results ∧
      st1.processed.Nodup ∧
      st1.processed.length = (["A", "B", "D", "C"] : List String).length ∧
      st1.processed.head? = some (gAgent "A").id := by
  have h1 := (C2_graph_traversal (β := String)).2
  have h : exampleGraphStrand.execute_graph "x" 0
      = (.ok (.success "g" ["A", "B", "D", "C"] none),
         (exampleGraphStrand.execute_graph "x" 0).2.1,
         (exampleGraphStrand.execute_graph "x" 0).2.2) := by
    rw [← h1]
  exact ((C2_graph_traversal).1 exampleGraphStrand (gAgent "A")
    [gAgent "B", gAgent "C", gAgent "D"] "x" 0 "g" ["A", "B", "D", "C"] none _ _
    rfl h).2.2

def emptyStrand : AgentStrand ℕ :=
  { name := "empty", agents := [], communication_graph := [] }

/-- C9 counterexample: graph mode on an empty strand returns the
`{"error": "No agents in strand"}` dictionary, which carries no strand
name and no results sequence, so the claim that every mode returns a
result containing the strand name fails. -/
theorem C9_counterexample :
    (emptyStrand.execute_graph 0 0).1 = .ok (.errorValue "No agents in strand") ∧
    ¬ ∃ nm results fin,
      (emptyStrand.execute_graph 0 0).1 = .ok (.success nm results fin) := by
  refine ⟨rfl, ?_⟩
  rintro ⟨nm, results, fin, h⟩
  have h' : (Except.ok (StrandResult.errorValue "No agents in strand")
      : Except String (StrandResult ℕ)) = .ok (.success nm results fin) := h
  exact StrandResult.noConfusion (Except.ok.inj h')

/-- C9 (amended): whenever a mode returns a value (no propagated agent
failure), sequential and parallel runs return the strand name with the
per-agent outputs (with `final_output` present in sequential mode
only), graph runs do so for non-empty strands, and a graph run on an
empty strand returns a structured error value without the strand
name. -/
theorem C9_result_shape :
    (∀ (s : AgentStrand β) (input : β) (t : ℕ) (res : StrandResult β)
        (s' : AgentStrand β) (t2 : ℕ),
      s.execute_sequential input t = (.ok res, s', t2) →
      ∃ results fin, res = .success s.name results (some fin)) ∧
    (∀ (s : AgentStrand β) (input : β) (t : ℕ) (res : StrandResult β)
        (s' : AgentStrand β) (t2 : ℕ),
      s.execute_parallel input t = (.ok res, s', t2) →
      ∃ results, res = .success s.name results none) ∧
    (∀ (s : AgentStrand β) (input : β) (t : ℕ) (res : StrandResult β)
        (s' : AgentStrand β) (t2 : ℕ),
      s.agents ≠ [] →
      s.execute_graph input t = (.ok res, s', t2) →
      ∃ results, res = .success s.name results none) ∧
    (∀ (s : AgentStrand β) (input : β) (t : ℕ),
      s.agents = [] →
      (s.execute_graph input t).1 = .ok (.errorValue "No agents in strand")) := by
  refine ⟨?_, ?_, ?_, ?_⟩
  · intro s input t res s' t2 h
    simp only [AgentStrand.execute_sequential] at h
    cases hr : runSequential s.agents input t with
    | mk r1 p1 =>
      cases p1 with
      | mk ags t3 =>
        rw [hr] at h
        cases r1 with
        | error e => simp at h
        | ok pr =>
          cases pr with
          | mk results' fin' =>
            simp only [Prod.mk.injEq, Except.ok.injEq] at h
            obtain ⟨hres, -, -⟩ := h
            exact ⟨results', fin', hres.symm⟩
  · intro s input t res s' t2 h
    simp only [AgentStrand.execute_parallel] at h
    cases hc : collectExcept
        (List.map Prod.fst (List.map (fun a => a.process input t (t + 1)) s.agents)) with
    | error e =>
      rw [hc] at h
      simp at h
    | ok rs =>
      rw [hc] at h
      simp only [] at h
      simp only [Prod.mk.injEq, Except.ok.injEq] at h
      obtain ⟨hres, -, -⟩ := h
      exact ⟨rs, hres.symm⟩
  · intro s input t res s' t2 hne h
    cases hag : s.agents with
    | nil => exact absurd hag hne
    | cons a0 rest0 =>
      simp only [AgentStrand.execute_graph] at h
      rw [hag] at h
      simp only [] at h
      cases hp : a0.process input t (t + 1) with
      | mk r a1 =>
        rw [hp] at h
        cases r with
        | error e => simp at h
        | ok out =>
          simp only [] at h
          cases hw : processNext s.communication_graph (graphFuel s) a0.id out
              ⟨replaceFirst (a0 :: rest0) a0.id a1, [a0.id], [out], t + 1⟩ with
          | mk st1 ex =>
            rw [hw] at h
            cases ex with
            | fail e => simp at h
            | fuelOut => simp at h
            | done =>
              simp only [] at h
              simp only [Prod.mk.injEq, Except.ok.injEq] at h
              obtain ⟨hres, -, -⟩ := h
              exact ⟨st1.results, hres.symm⟩
  · intro s input t hag
    simp [AgentStrand.execute_graph, hag]

theorem C9_witness :
    (∃ results fin, (StrandResult.success "seq" [1, 2] (some 2) : StrandResult ℕ)
        = .success okStrand.name results (some fin)) ∧
    (∃ results, (StrandResult.success "seq" [1, 1] none : StrandResult ℕ)
        = .success okStrand.name results none) ∧
    (∃ results, (StrandResult.success "g" ["A", "B", "D", "C"] none : StrandResult String)
        = .success exampleGraphStrand.name results none) ∧
    (emptyStrand.execute_graph 0 0).1 = .ok (.errorValue "No agents in strand") := by
  refine ⟨?_, ?_, ?_, ?_⟩
  · have h1 : (okStrand.execute_sequential 0 0).1
        = .ok (.success "seq" [1, 2] (some 2)) := rfl
    have h : okStrand.execute_sequential 0 0
        = (.ok (.success "seq" [1, 2] (some 2)),
           (okStrand.execute_sequential 0 0).2.1,
           (okStrand.execute_sequential 0 0).2.2) := by
      rw [← h1]
    exact (C9_result_shape).1 okStrand 0 0 _ _ _ h
  · have h1 : (okStrand.execute_parallel 0 0).1
        = .ok (.success "seq" [1, 1] none) := rfl
    have h : okStrand.execute_parallel 0 0
        = (.ok (.success "seq" [1, 1] none),
           (okStrand.execute_parallel 0 0).2.1,
           (okStrand.execute_parallel 0 0).2.2) := by
      rw [← h1]
    exact (C9_result_shape).2.1 okStrand 0 0 _ _ _ h
  · have h1 : (exampleGraphStrand.execute_graph "x" 0).1
        = .ok (.success "g" ["A", "B", "D", "C"] none) := rfl
    have h : exampleGraphStrand.execute_graph "x" 0
        = (.ok (.success "g" ["A", "B", "D", "C"] none),
           (exampleGraphStrand.execute_graph "x" 0).2.1,
           (exampleGraphStrand.execute_graph "x" 0).2.2) := by
      rw [← h1]
    exact (C9_result_shape).2.2.1 exampleGraphStrand "x" 0 _ _ _ (by simp [exampleGraphStrand]) h
  · exact (C9_result_shape).2.2.2 emptyStrand 0 0 rfl
